import Mathlib

/-!
Shallow embedding of the helicase crate (a k-mer / sliding-window library over the
4-letter nucleotide alphabet) and a verification of its specification claims.

Machine integers are modelled as naturals with explicit reductions modulo powers of
two where the source wraps.  The three window representations are:
* `small.Kmer`    — src/kmer/small.rs, a k-mer packed in a u64 (K ≤ 32);
* `unbounded.Kmer` — src/kmer/unbounded.rs, an Lsb0 bit box with a rotating start
  offset (the circular representation);
* `growable.Kmer` — src/kmer/growable.rs, an Msb0 bit vector (the bounded
  representation; only construction and size exist in the source).
`seq.Sequence` embeds src/sequence.rs, the rolling sequence of bases.
-/

/-- Nucleotide base, src/base.rs enum Base.  Discriminants: C=0, A=1, T=2, G=3. -/
inductive Base
  | C
  | A
  | T
  | G
deriving DecidableEq

/-- Numeric discriminant of a base, the value of a Rust cast like base as u64. -/
def Base.toCode : Base → Nat
  | .C => 0
  | .A => 1
  | .T => 2
  | .G => 3

/-- Model of Base::from_u8_unchecked (src/base.rs): the arms 0..=3 produce a base; the
wildcard arm is unreachable_unchecked, i.e. undefined behaviour, modelled as none. -/
def Base.from_u8_unchecked : Nat → Option Base
  | 0 => some .C
  | 1 => some .A
  | 2 => some .T
  | 3 => some .G
  | _ => none

/-- Model of utils::saturating_bitmask (src/lib.rs):
u64::MAX.unbounded_shr(64u32.saturating_sub(bits)).  Natural subtraction is already
saturating, and the shift never reaches 64 after the saturation, so unbounded_shr
coincides with the plain shift here. -/
def saturating_bitmask (bits : Nat) : Nat := (2 ^ 64 - 1) >>> (64 - bits)

namespace small

/-- Model of small::Kmer of const K (src/kmer/small.rs): the const generic parameter is
carried as the field k, and the Cell of u64 as the natural number inner (< 2^64). -/
structure Kmer where
  k : Nat
  inner : Nat
deriving DecidableEq

/-- Model of Kmer::new: the zero value.  The compile-time assertions 0 < K and K ≤ 32
appear as hypotheses of the theorems below. -/
def new (k : Nat) : Kmer := ⟨k, 0⟩

/-- Model of the From u64 impl for Kmer of K: stores the raw value unmasked. -/
def fromU64 (k v : Nat) : Kmer := ⟨k, v⟩

/-- Body of Kmer::push on the wrapped u64 with the pushed 2-bit code already cast:
inner <<= 2 (wrapping, hence the reduction mod 2^64) then inner |= code. -/
def pushCode (km : Kmer) (c : Nat) : Kmer := ⟨km.k, ((km.inner <<< 2) % 2 ^ 64) ||| c⟩

/-- Model of Kmer::push: push base as u64. -/
def push (km : Kmer) (b : Base) : Kmer := pushCode km b.toCode

/-- A sequence of pushes, oldest first (left fold, as the source call chain). -/
def pushAll (km : Kmer) (bs : List Base) : Kmer := bs.foldl push km

/-- The 2-bit group read by Bases::next (src/kmer/small.rs) when self.pos = pos:
(inner >> ((K - pos - 1) * 2)) & 3. -/
def baseCode (km : Kmer) (pos : Nat) : Nat := (km.inner >>> ((km.k - pos - 1) * 2)) &&& 3

/-- The raw 2-bit codes produced by the bases() iterator, oldest first. -/
def basesCodes (km : Kmer) : List Nat := (List.range km.k).map (baseCode km)

/-- The bases() iterator output: exactly K items, each through Base::from_u8_unchecked. -/
def bases (km : Kmer) : List (Option Base) := (basesCodes km).map Base.from_u8_unchecked

/-- Model of Kmer::into_masked: inner & saturating_bitmask(K as u32 * 2). -/
def into_masked (km : Kmer) : Nat := km.inner &&& saturating_bitmask (km.k * 2)

/-- Model of Kmer::shrink_to of const L: the same inner value reinterpreted with
length L.  The compile-time assertion L ≤ K is the failure branch, modelled as none. -/
def shrink_to (km : Kmer) (l : Nat) : Option Kmer :=
  if l ≤ km.k then some ⟨l, km.inner⟩ else none

end small

namespace unbounded

/-- Model of unbounded::Kmer (src/kmer/unbounded.rs): store is the BitBox of usize with
Lsb0 order, modelled as the natural number whose binary bit i is buffer bit i; len is
the buffer length in bits; start is the start field (an offset in bits). -/
structure Kmer where
  store : Nat
  len : Nat
  start : Nat
deriving DecidableEq

/-- Model of Kmer::new(k): a zeroed buffer of k*2 bits with start = k*2. -/
def new (k : Nat) : Kmer := ⟨0, k * 2, k * 2⟩

/-- Model of Kmer::from_bytes: bytes.iter().rev() zipped with the 8-bit Lsb0 chunks
puts the last byte in bits [0,8) and the first byte in the topmost chunk, so the store
value accumulates the bytes most-significant-first; start = len = 8 * number of bytes.
chunk.store masks each byte to its 8 bits. -/
def from_bytes (bytes : List Nat) : Kmer :=
  ⟨bytes.foldl (fun acc b => acc * 256 + b % 256) 0, bytes.length * 8, bytes.length * 8⟩

/-- Body of Kmer::push with the pushed code already cast to usize: copy_from_bitslice
writes the low two bits of the code into buffer bits [start-2, start) — here the store
is split below bit start-2 / at the two-bit slot / from bit start upward and the slot is
replaced — then start = (start - 2) % len, wrapping the value 0 back to len. -/
def pushCode (km : Kmer) (c : Nat) : Kmer :=
  let w := km.start - 2
  let store' := km.store % 2 ^ w + (c % 4) * 2 ^ w + ((km.store >>> (w + 2)) <<< (w + 2))
  let s1 := (km.start - 2) % km.len
  ⟨store', km.len, if s1 = 0 then km.len else s1⟩

/-- Model of Kmer::push: push base as usize. -/
def push (km : Kmer) (b : Base) : Kmer := pushCode km b.toCode

/-- A sequence of pushes, oldest first. -/
def pushAll (km : Kmer) (bs : List Base) : Kmer := bs.foldl push km

/-- Model of Kmer::size: store.len() / 2. -/
def size (km : Kmer) : Nat := km.len / 2

/-- The bit position computed by Bases::next for the numRead-th read:
(start as isize - num_read as isize * 2).rem_euclid(len as isize), with the match arm
mapping 0 to len.  Int.emod is rem_euclid. -/
def bitPos (km : Kmer) (numRead : Nat) : Nat :=
  let m : Int := ((km.start : Int) - (numRead : Int) * 2) % (km.len : Int)
  if m = 0 then km.len else m.toNat

/-- The 2-bit load of Bases::next: buffer bits [bitPos - 2, bitPos). -/
def baseCode (km : Kmer) (numRead : Nat) : Nat := (km.store >>> (bitPos km numRead - 2)) &&& 3

/-- The raw codes produced by the bases() iterator, oldest first (size() reads). -/
def basesCodes (km : Kmer) : List Nat := (List.range (size km)).map (baseCode km)

/-- The bases() iterator output, each code through Base::from_u8_unchecked. -/
def bases (km : Kmer) : List (Option Base) := (basesCodes km).map Base.from_u8_unchecked

end unbounded

namespace growable

/-- Model of growable::Kmer (src/kmer/growable.rs): a BitVec of usize with Msb0 order,
modelled as the list of bits with index 0 the most significant position. -/
structure Kmer where
  inner : List Bool
deriving DecidableEq

/-- Model of Kmer::new(k): bitvec of k * 2 zero bits. -/
def new (k : Nat) : Kmer := ⟨List.replicate (k * 2) false⟩

/-- Model of Kmer::size: self.inner.len(), the length in bits. -/
def size (km : Kmer) : Nat := km.inner.length

/-- Modelled from the spec: push is absent from src/src/kmer/growable.rs (the module has
only new and size).  Spec 4.3 requires: shift the entire 2K-bit buffer left by 2 bits,
discarding the top 2 bits (the oldest symbol), then write the new symbol's 2-bit code
into the low 2 bits.  On the Msb0 bit list this drops the two leading bits and appends
the code's high bit then its low bit. -/
def push (km : Kmer) (b : Base) : Kmer :=
  ⟨km.inner.drop 2 ++ [b.toCode.testBit 1, b.toCode.testBit 0]⟩

/-- A sequence of the spec-modelled pushes, oldest first. -/
def pushAll (km : Kmer) (bs : List Base) : Kmer := bs.foldl push km

/-- Modelled from the spec: symbols() is absent from src/src/kmer/growable.rs.  Spec 4.3
gives it the same read contract as the inline window: the i-th symbol, oldest first, is
the 2-bit group at Msb0 positions 2i and 2i+1 (high bit first). -/
def baseCode (km : Kmer) (i : Nat) : Nat :=
  2 * (cond (km.inner.getD (2 * i) false) 1 0) + cond (km.inner.getD (2 * i + 1) false) 1 0

/-- Modelled from the spec: the symbol codes of the window, oldest first, one per 2-bit
group of the buffer. -/
def basesCodes (km : Kmer) : List Nat := (List.range (km.inner.length / 2)).map (baseCode km)

/-- The symbols() output, each code through the checked-by-invariant conversion. -/
def bases (km : Kmer) : List (Option Base) := (basesCodes km).map Base.from_u8_unchecked

end growable

namespace seq

/-- Model of Sequence (src/sequence.rs): a BitVec with Lsb0 order holding two bits per
base, modelled as the list of bits in index order. -/
structure Sequence where
  store : List Bool
deriving DecidableEq

/-- Model of Sequence::new: empty store. -/
def new : Sequence := ⟨[]⟩

/-- The (high, low) bit pair of the match in Sequence::push. -/
def baseBits : Base → Bool × Bool
  | .C => (false, false)
  | .A => (false, true)
  | .T => (true, false)
  | .G => (true, true)

/-- Model of Sequence::push: pushes bits.1 (the low bit) then bits.0 (the high bit). -/
def push (s : Sequence) (b : Base) : Sequence := ⟨s.store ++ [(baseBits b).2, (baseBits b).1]⟩

/-- A sequence built by pushing the given bases, in order, onto Sequence::new. -/
def ofBases (bs : List Base) : Sequence := bs.foldl push new

/-- The u8 loaded from the j-th 2-bit Lsb0 chunk by chunks_exact(2) plus load, as done
in Sequence::kmers and SmallKmerIter::next: low bit plus twice the high bit. -/
def chunkLoad (s : Sequence) (j : Nat) : Nat :=
  (cond (s.store.getD (2 * j) false) 1 0) + 2 * cond (s.store.getD (2 * j + 1) false) 1 0

/-- The codes of all full 2-bit chunks of the store, in order. -/
def chunkCodes (s : Sequence) : List Nat := (List.range (s.store.length / 2)).map (chunkLoad s)

/-- The loop of SmallKmerIter::next: push the next chunk's base, yield the k-mer value
(each yielded item is the value after that push). -/
def go (km : small.Kmer) : List Nat → List small.Kmer
  | [] => []
  | c :: cs => (small.pushCode km c) :: go (small.pushCode km c) cs

/-- Model of Sequence::kmers of const K: seed a fresh k-mer with the first K-1 chunks
(the if-let in the source silently skips chunks that are not there), then iterate over
the remaining chunks, pushing and yielding. -/
def kmers (K : Nat) (s : Sequence) : List small.Kmer :=
  go (((chunkCodes s).take (K - 1)).foldl small.pushCode (small.new K))
    ((chunkCodes s).drop (K - 1))

end seq

/-- Abstract FIFO window step: drop the oldest code, append the new one. -/
def fifoStep (w : List Nat) (c : Nat) : List Nat := w.drop 1 ++ [c]

/-- Abstract FIFO window contents after a code sequence pushed into a window of k
zero codes. -/
def fifoRun (k : Nat) (cs : List Nat) : List Nat := cs.foldl fifoStep (List.replicate k 0)

/-- Raw (non-wrapping) shift-accumulate of 2-bit codes, the arithmetic skeleton shared
by the u64 window and the byte-packed buffer. -/
def pra (v : Nat) (cs : List Nat) : Nat := cs.foldl (fun a c => a * 4 + c) v

/-- The four 2-bit groups of a byte, most-significant pair first (the canonical wire
bit order of spec section 6). -/
def byteBases (b : Nat) : List Nat := [b / 64 % 4, b / 16 % 4, b / 4 % 4, b % 4]

/-! Arithmetic bridges between the bit operations of the source and plain
division/remainder arithmetic. -/

/-- Bitwise or against a multiple of four adds a 2-bit code. -/
theorem or_four_mul (q b : Nat) (hb : b < 4) : 4 * q ||| b = 4 * q + b := by
  apply Nat.eq_of_testBit_eq
  intro i
  rw [Nat.testBit_or]
  match i with
  | 0 =>
    have h1 : (4 * q + b) % 2 = b % 2 := by omega
    have h2 : (4 * q) % 2 = 0 := by omega
    simp [Nat.testBit_zero, h1, h2]
  | 1 =>
    rw [Nat.testBit_add_one, Nat.testBit_add_one, Nat.testBit_add_one]
    have h1 : (4 * q + b) / 2 = 2 * q + b / 2 := by omega
    have h2 : (4 * q) / 2 = 2 * q := by omega
    have h3 : (2 * q + b / 2) % 2 = (b / 2) % 2 := by omega
    have h4 : (2 * q) % 2 = 0 := by omega
    simp [Nat.testBit_zero, h1, h2, h3, h4]
  | (i + 2) =>
    have e : ∀ x : Nat, x.testBit (i + 2) = (x / 2 / 2).testBit i := by
      intro x
      rw [show i + 2 = (i + 1) + 1 from rfl, Nat.testBit_add_one, Nat.testBit_add_one]
    rw [e, e, e]
    have h1 : (4 * q + b) / 2 / 2 = q := by omega
    have h2 : (4 * q) / 2 / 2 = q := by omega
    have h3 : b / 2 / 2 = 0 := by omega
    simp [h1, h2, h3, Nat.zero_testBit]

/-- Masking with 3 is reduction mod 4. -/
theorem and_three (x : Nat) : x &&& 3 = x % 4 := by
  have h := Nat.and_pow_two_sub_one_eq_mod x 2
  norm_num at h
  exact h

/-- Powers of four as powers of two with doubled exponent. -/
theorem two_pow_double (j : Nat) : (2 : Nat) ^ (2 * j) = 4 ^ j := by
  rw [Nat.pow_mul]

/-- A shift by an even amount followed by the 2-bit mask extracts a base-4 digit. -/
theorem shift_and_three (x j : Nat) : (x >>> (2 * j)) &&& 3 = x / 4 ^ j % 4 := by
  rw [and_three, Nat.shiftRight_eq_div_pow, two_pow_double]

/-- The u64 modulus as a power of four. -/
theorem two_pow_64_eq : (2 : Nat) ^ 64 = 4 ^ 32 := by norm_num

/-- Value of saturating_bitmask within the u64 range. -/
theorem saturating_bitmask_eq {bits : Nat} (h : bits ≤ 64) :
    saturating_bitmask bits = 2 ^ bits - 1 := by
  unfold saturating_bitmask
  rw [Nat.shiftRight_eq_div_pow]
  have h1 : (2 : Nat) ^ 64 = 2 ^ bits * 2 ^ (64 - bits) := by
    rw [← pow_add]
    congr 1
    omega
  have h2 : (1 : Nat) ≤ 2 ^ (64 - bits) := Nat.one_le_two_pow
  have h4 : (1 : Nat) ≤ 2 ^ bits := Nat.one_le_two_pow
  have e1 : (2 ^ bits - 1) * 2 ^ (64 - bits) = 2 ^ 64 - 2 ^ (64 - bits) := by
    rw [Nat.sub_mul, one_mul, ← h1]
  have e2 : (2 ^ bits - 1 + 1) * 2 ^ (64 - bits) = 2 ^ 64 := by
    rw [Nat.sub_add_cancel h4, ← h1]
  apply Nat.div_eq_of_lt_le <;> omega

/-- Digits below position m of a number are unchanged by reduction mod 4^m. -/
theorem digit_mod_pow (v d m : Nat) (h : d + 1 ≤ m) :
    (v % 4 ^ m) / 4 ^ d % 4 = v / 4 ^ d % 4 := by
  conv_rhs => rw [← Nat.div_add_mod v (4 ^ m)]
  have h1 : 4 ^ m * (v / 4 ^ m) = (4 ^ (m - d - 1) * (v / 4 ^ m) * 4) * 4 ^ d := by
    have he : (4 : Nat) ^ m = 4 ^ d * 4 ^ (m - d - 1) * 4 := by
      have : (4 : Nat) ^ m = 4 ^ (d + (m - d - 1) + 1) := by
        congr 1
        omega
      rw [this, pow_add, pow_add, pow_one]
    rw [he]
    ring
  rw [h1, Nat.add_comm, Nat.add_mul_div_right _ _ (Nat.pos_pow_of_pos d (by norm_num)),
    Nat.add_mul_mod_self_right]

/-- A base-4 digit of x is a function of x mod 4^(j+1). -/
theorem digit_eq_mod_div (x j : Nat) : x / 4 ^ j % 4 = x % 4 ^ (j + 1) / 4 ^ j := by
  rw [pow_succ, Nat.mod_mul_right_div_self]

/-! Properties of the raw shift-accumulate pra and of the abstract FIFO model. -/

theorem pra_nil (v : Nat) : pra v [] = v := rfl

theorem pra_cons (v c : Nat) (cs : List Nat) : pra v (c :: cs) = pra (v * 4 + c) cs := rfl

theorem pra_append (v : Nat) (xs ys : List Nat) : pra v (xs ++ ys) = pra (pra v xs) ys :=
  List.foldl_append _ _ _ _

/-- Splitting the seed out of the accumulated value. -/
theorem pra_decomp (cs : List Nat) : ∀ v : Nat, pra v cs = v * 4 ^ cs.length + pra 0 cs := by
  induction cs with
  | nil => intro v; simp [pra_nil]
  | cons c cs ih =>
    intro v
    rw [pra_cons, pra_cons, ih (v * 4 + c), ih (0 * 4 + c)]
    simp [List.length_cons]
    ring

/-- The accumulated value of in-range codes is bounded by the digit count. -/
theorem pra_lt (cs : List Nat) (h : ∀ c ∈ cs, c < 4) :
    ∀ v : Nat, pra v cs < (v + 1) * 4 ^ cs.length := by
  induction cs with
  | nil => intro v; simp [pra_nil]
  | cons c cs ih =>
    intro v
    rw [pra_cons]
    have hc : c < 4 := h c (List.mem_cons_self c cs)
    have ih2 := ih (fun x hx => h x (List.mem_cons_of_mem _ hx)) (v * 4 + c)
    calc pra (v * 4 + c) cs < (v * 4 + c + 1) * 4 ^ cs.length := ih2
      _ ≤ ((v + 1) * 4) * 4 ^ cs.length := by
          apply Nat.mul_le_mul_right
          omega
      _ = (v + 1) * 4 ^ (c :: cs).length := by
          rw [List.length_cons, pow_succ]
          ring

theorem pra_zero_lt (cs : List Nat) (h : ∀ c ∈ cs, c < 4) : pra 0 cs < 4 ^ cs.length := by
  have := pra_lt cs h 0
  simpa using this

/-- Digit extraction from the accumulated value: position p (0 = most significant of
the cs.length digits) recovers the p-th code. -/
theorem pra_digit (cs : List Nat) (h : ∀ c ∈ cs, c < 4) :
    ∀ p, p < cs.length → pra 0 cs / 4 ^ (cs.length - 1 - p) % 4 = cs.getD p 0 := by
  induction cs with
  | nil => intro p hp; simp at hp
  | cons c cs ih =>
    intro p hp
    have hc : c < 4 := h c (List.mem_cons_self c cs)
    have htail : ∀ x ∈ cs, x < 4 := fun x hx => h x (List.mem_cons_of_mem _ hx)
    have hsplit : pra 0 (c :: cs) = c * 4 ^ cs.length + pra 0 cs := by
      rw [pra_cons]
      have := pra_decomp cs (0 * 4 + c)
      simpa using this
    match p with
    | 0 =>
      have hlen : (c :: cs).length - 1 - 0 = cs.length := by simp
      rw [hsplit, hlen, Nat.add_comm,
        Nat.add_mul_div_right _ _ (Nat.pos_pow_of_pos cs.length (by norm_num)),
        Nat.div_eq_of_lt (pra_zero_lt cs htail), Nat.zero_add]
      simp [Nat.mod_eq_of_lt hc]
    | p' + 1 =>
      have hp' : p' < cs.length := by
        simpa using Nat.lt_of_succ_lt_succ hp
      have hlen : (c :: cs).length - 1 - (p' + 1) = cs.length - 1 - p' := by
        simp only [List.length_cons]
        omega
      rw [hsplit, hlen]
      have he : (4 : Nat) ^ cs.length = 4 ^ (cs.length - 1 - p') * 4 ^ (p' + 1) := by
        rw [← pow_add]
        congr 1
        omega
      have hre : c * 4 ^ cs.length + pra 0 cs
          = pra 0 cs + (c * 4 ^ (p' + 1)) * 4 ^ (cs.length - 1 - p') := by
        rw [he]
        ring
      rw [hre, Nat.add_mul_div_right _ _ (Nat.pos_pow_of_pos _ (by norm_num))]
      have hmul : c * 4 ^ (p' + 1) = c * 4 ^ p' * 4 := by
        rw [pow_succ]
        ring
      rw [hmul, Nat.add_mul_mod_self_right]
      rw [ih htail p' hp']
      simp

/-- The accumulated value mod M only depends on the seed mod M. -/
theorem pra_congr (cs : List Nat) : ∀ {x y M : Nat}, x % M = y % M →
    pra x cs % M = pra y cs % M := by
  induction cs with
  | nil => intro x y M h; exact h
  | cons c cs ih =>
    intro x y M h
    rw [pra_cons, pra_cons]
    exact ih ((Nat.ModEq.mul_right 4 h).add_right c)

theorem fifoStep_length (w : List Nat) (c : Nat) (h : 1 ≤ w.length) :
    (fifoStep w c).length = w.length := by
  simp [fifoStep]
  omega

/-- Folding the FIFO step drops one leading element per pushed code. -/
theorem fifo_foldl (cs : List Nat) : ∀ w : List Nat, 1 ≤ w.length →
    cs.foldl fifoStep w = (w ++ cs).drop cs.length := by
  induction cs with
  | nil => intro w hw; simp
  | cons c cs ih =>
    intro w hw
    rw [List.foldl_cons]
    have hlen : 1 ≤ (fifoStep w c).length := by rw [fifoStep_length w c hw]; exact hw
    rw [ih (fifoStep w c) hlen]
    have h1 : (w ++ c :: cs).drop (c :: cs).length
        = ((w ++ c :: cs).drop 1).drop cs.length := by
      rw [List.drop_drop]
      congr 1
      simp [Nat.add_comm]
    rw [h1, List.drop_append_of_le_length hw]
    have h2 : w.drop 1 ++ c :: cs = (fifoStep w c) ++ cs := by
      simp [fifoStep]
    rw [h2]

theorem fifoRun_eq (k : Nat) (cs : List Nat) (hk : 1 ≤ k) :
    fifoRun k cs = (List.replicate k 0 ++ cs).drop cs.length := by
  unfold fifoRun
  rw [fifo_foldl cs (List.replicate k 0) (by simpa using hk)]

theorem fifoRun_length (k : Nat) (cs : List Nat) (hk : 1 ≤ k) :
    (fifoRun k cs).length = k := by
  rw [fifoRun_eq k cs hk]
  simp

/-- A full window of pushes is recovered exactly. -/
theorem fifoRun_of_length (k : Nat) (cs : List Nat) (h : cs.length = k) :
    fifoRun k cs = cs := by
  rcases Nat.eq_zero_or_pos k with hk | hk
  · subst hk
    have : cs = [] := List.eq_nil_of_length_eq_zero h
    subst this
    rfl
  · rw [fifoRun_eq k cs hk, ← h, List.drop_left' (by simp)]

/-- With at least k codes pushed, the window holds the last k of them. -/
theorem fifoRun_suffix (k : Nat) (cs : List Nat) (hk : 1 ≤ k) (h : k ≤ cs.length) :
    fifoRun k cs = cs.drop (cs.length - k) := by
  rw [fifoRun_eq k cs hk]
  have h1 : cs.length = k + (cs.length - k) := by omega
  conv_lhs => rw [h1]
  rw [← List.drop_drop]
  congr 1
  exact List.drop_left' (by simp)

/-! Properties of the inline u64 window. -/

theorem Base.toCode_lt (b : Base) : b.toCode < 4 := by cases b <;> simp [Base.toCode]

theorem Base.from_u8_unchecked_toCode (b : Base) :
    Base.from_u8_unchecked b.toCode = some b := by
  cases b <;> rfl

namespace small

theorem pushCode_eq (km : Kmer) (c : Nat) (hc : c < 4) :
    pushCode km c = ⟨km.k, (km.inner * 4 + c) % 2 ^ 64⟩ := by
  unfold pushCode
  congr 1
  have h1 : km.inner <<< 2 = km.inner * 4 := by
    rw [Nat.shiftLeft_eq]
  have h2 : km.inner * 4 % 2 ^ 64 = 4 * (km.inner % 2 ^ 62) := by
    rw [Nat.mul_comm km.inner 4, show (2 : Nat) ^ 64 = 4 * 2 ^ 62 by norm_num,
      Nat.mul_mod_mul_left]
  have h3 : km.inner % 2 ^ 62 < 2 ^ 62 := Nat.mod_lt _ (by positivity)
  rw [h1, h2, or_four_mul _ _ hc]
  symm
  rw [Nat.add_mod, h2, Nat.mod_eq_of_lt (show c < 2 ^ 64 by omega),
    Nat.mod_eq_of_lt (by omega)]

theorem pushCode_k (km : Kmer) (c : Nat) : (pushCode km c).k = km.k := rfl

theorem push_k (km : Kmer) (b : Base) : (push km b).k = km.k := rfl

theorem pushAll_k (bs : List Base) : ∀ km : Kmer, (pushAll km bs).k = km.k := by
  induction bs with
  | nil => intro km; rfl
  | cons b bs ih => intro km; exact ih (push km b)

theorem pushCode_lt (km : Kmer) (c : Nat) (hc : c < 4) : (pushCode km c).inner < 2 ^ 64 := by
  rw [pushCode_eq km c hc]
  exact Nat.mod_lt _ (by positivity)

/-- The iterator read is a base-4 digit of the inner value. -/
theorem baseCode_eq_digit (km : Kmer) (pos : Nat) :
    baseCode km pos = km.inner / 4 ^ (km.k - pos - 1) % 4 := by
  unfold baseCode
  rw [Nat.mul_comm, shift_and_three]

/-- Reads only depend on the low 2k bits of the inner value. -/
theorem basesCodes_mod (k v w : Nat) (h : v % 4 ^ k = w % 4 ^ k) :
    basesCodes ⟨k, v⟩ = basesCodes ⟨k, w⟩ := by
  unfold basesCodes
  apply List.map_congr_left
  intro pos hpos
  have hpos' : pos < k := List.mem_range.mp hpos
  rw [baseCode_eq_digit, baseCode_eq_digit]
  show v / 4 ^ (k - pos - 1) % 4 = w / 4 ^ (k - pos - 1) % 4
  rw [← digit_mod_pow v (k - pos - 1) k (by omega), ← digit_mod_pow w (k - pos - 1) k (by omega), h]

/-- Assembling a FIFO step over range-indexed reads from pointwise facts. -/
theorem map_range_fifo (k : Nat) (hk : 1 ≤ k) (f g : Nat → Nat) (c : Nat)
    (hshift : ∀ i, i < k - 1 → g i = f (i + 1)) (hlast : g (k - 1) = c) :
    (List.range k).map g = fifoStep ((List.range k).map f) c := by
  unfold fifoStep
  have hk1 : k = (k - 1) + 1 := by omega
  rw [List.drop_one]
  conv_lhs => rw [hk1, List.range_succ, List.map_append]
  conv_rhs => rw [hk1, List.range_succ_eq_map, List.map_cons, List.tail_cons, List.map_map]
  congr 1
  · apply List.map_congr_left
    intro i hi
    exact hshift i (List.mem_range.mp hi)
  · simp [hlast]

/-- One push performs the FIFO step on the read-back codes. -/
theorem codes_push (km : Kmer) (c : Nat) (hc : c < 4) (hk : 1 ≤ km.k) (hk32 : km.k ≤ 32) :
    basesCodes (pushCode km c) = fifoStep (basesCodes km) c := by
  rw [pushCode_eq km c hc]
  unfold basesCodes
  show (List.range km.k).map (baseCode ⟨km.k, (km.inner * 4 + c) % 2 ^ 64⟩)
      = fifoStep ((List.range km.k).map (baseCode km)) c
  apply map_range_fifo km.k hk
  · intro pos hpos
    rw [baseCode_eq_digit, baseCode_eq_digit]
    show ((km.inner * 4 + c) % 2 ^ 64) / 4 ^ (km.k - pos - 1) % 4
        = km.inner / 4 ^ (km.k - (pos + 1) - 1) % 4
    rw [two_pow_64_eq, digit_mod_pow _ _ 32 (by omega)]
    have hd : km.k - pos - 1 = (km.k - pos - 2) + 1 := by omega
    rw [hd, pow_succ, Nat.mul_comm (4 ^ (km.k - pos - 2)) 4, ← Nat.div_div_eq_div_mul]
    have hdiv : (km.inner * 4 + c) / 4 = km.inner := by omega
    have hd2 : km.k - pos - 2 = km.k - (pos + 1) - 1 := by omega
    rw [hdiv, hd2]
  · rw [baseCode_eq_digit]
    show ((km.inner * 4 + c) % 2 ^ 64) / 4 ^ (km.k - (km.k - 1) - 1) % 4 = c
    have hd : km.k - (km.k - 1) - 1 = 0 := by omega
    rw [hd, pow_zero, Nat.div_one, Nat.mod_mod_of_dvd _ (by norm_num)]
    omega

/-- A fresh window reads back as k zero codes. -/
theorem codes_new (k : Nat) : basesCodes (new k) = List.replicate k 0 := by
  rw [List.eq_replicate_iff]
  constructor
  · simp [basesCodes, new]
  · intro b hb
    unfold basesCodes new at hb
    rcases List.mem_map.mp hb with ⟨pos, _, hpos⟩
    rw [baseCode_eq_digit] at hpos
    simpa using hpos.symm

/-- Pushing a base list folds the FIFO step over the read-back codes. -/
theorem codes_run (bs : List Base) : ∀ km : Kmer, 1 ≤ km.k → km.k ≤ 32 →
    basesCodes (pushAll km bs) = (bs.map Base.toCode).foldl fifoStep (basesCodes km) := by
  induction bs with
  | nil => intro km _ _; rfl
  | cons b bs ih =>
    intro km hk hk32
    show basesCodes (pushAll (push km b) bs)
        = (Base.toCode b :: bs.map Base.toCode).foldl fifoStep (basesCodes km)
    rw [List.foldl_cons, ih (push km b) (by rw [push_k]; exact hk) (by rw [push_k]; exact hk32)]
    congr 1
    exact codes_push km b.toCode (Base.toCode_lt b) hk hk32

/-- The read-back codes of a window freshly pushed with a base list. -/
theorem codes_pushAll_new (k : Nat) (bs : List Base) (hk : 1 ≤ k) (hk32 : k ≤ 32) :
    basesCodes (pushAll (new k) bs) = fifoRun k (bs.map Base.toCode) := by
  rw [codes_run bs (new k) hk hk32, codes_new]
  rfl

/-- The inner value accumulated by a push sequence. -/
theorem inner_pushAll (bs : List Base) : ∀ km : Kmer, km.inner < 2 ^ 64 →
    (pushAll km bs).inner = pra km.inner (bs.map Base.toCode) % 2 ^ 64 := by
  induction bs with
  | nil =>
    intro km hkm
    exact (Nat.mod_eq_of_lt hkm).symm
  | cons b bs ih =>
    intro km hkm
    show (pushAll (push km b) bs).inner = pra km.inner (b.toCode :: bs.map Base.toCode) % 2 ^ 64
    rw [ih (push km b) (pushCode_lt km b.toCode (Base.toCode_lt b)), pra_cons]
    show pra (pushCode km b.toCode).inner (bs.map Base.toCode) % 2 ^ 64
        = pra (km.inner * 4 + b.toCode) (bs.map Base.toCode) % 2 ^ 64
    rw [pushCode_eq km b.toCode (Base.toCode_lt b)]
    exact pra_congr (bs.map Base.toCode) (Nat.mod_mod_of_dvd _ (dvd_refl _))

end small

/-! Bit surgery on the circular store: writing one 2-bit cell leaves other cells alone. -/

/-- Normal form of the store written by the circular push: low part, new cell, high part. -/
theorem write_split (x c m : Nat) :
    x % 2 ^ (2 * m) + c * 2 ^ (2 * m) + ((x >>> (2 * m + 2)) <<< (2 * m + 2))
      = x % 4 ^ m + c * 4 ^ m + (x / 4 ^ (m + 1)) * 4 ^ (m + 1) := by
  rw [Nat.shiftLeft_eq, Nat.shiftRight_eq_div_pow, two_pow_double]
  have h : (2 : Nat) ^ (2 * m + 2) = 4 ^ (m + 1) := by
    rw [show 2 * m + 2 = 2 * (m + 1) from by ring, two_pow_double]
  rw [h]

/-- Reading the written cell recovers the written code. -/
theorem cell_write_eq (x c m : Nat) (hc : c < 4) :
    (x % 4 ^ m + c * 4 ^ m + (x / 4 ^ (m + 1)) * 4 ^ (m + 1)) / 4 ^ m % 4 = c := by
  have hpos : (0 : Nat) < 4 ^ m := Nat.pos_pow_of_pos _ (by norm_num)
  have hre : x % 4 ^ m + c * 4 ^ m + (x / 4 ^ (m + 1)) * 4 ^ (m + 1)
      = x % 4 ^ m + 4 ^ m * (c + x / 4 ^ (m + 1) * 4) := by
    rw [pow_succ]
    ring
  rw [hre, Nat.add_mul_div_left _ _ hpos, Nat.div_eq_of_lt (Nat.mod_lt _ hpos), Nat.zero_add,
    Nat.add_mul_mod_self_right, Nat.mod_eq_of_lt hc]

/-- Reading any other cell is unchanged by the write. -/
theorem cell_write_ne (x c m j : Nat) (hc : c < 4) (hj : j ≠ m) :
    (x % 4 ^ m + c * 4 ^ m + (x / 4 ^ (m + 1)) * 4 ^ (m + 1)) / 4 ^ j % 4 = x / 4 ^ j % 4 := by
  have hpos : ∀ t : Nat, (0 : Nat) < 4 ^ t := fun t => Nat.pos_pow_of_pos _ (by norm_num)
  rcases Nat.lt_or_ge j m with hjm | hjm
  · rw [digit_eq_mod_div, digit_eq_mod_div x j]
    have hre : x % 4 ^ m + c * 4 ^ m + (x / 4 ^ (m + 1)) * 4 ^ (m + 1)
        = x % 4 ^ m + (c * 4 ^ (m - j - 1) + x / 4 ^ (m + 1) * 4 ^ (m - j)) * 4 ^ (j + 1) := by
      have e1 : (4 : Nat) ^ m = 4 ^ (m - j - 1) * 4 ^ (j + 1) := by
        rw [← pow_add]
        congr 1
        omega
      have e2 : (4 : Nat) ^ (m + 1) = 4 ^ (m - j) * 4 ^ (j + 1) := by
        rw [← pow_add]
        congr 1
        omega
      calc x % 4 ^ m + c * 4 ^ m + (x / 4 ^ (m + 1)) * 4 ^ (m + 1)
          = x % 4 ^ m + c * (4 ^ (m - j - 1) * 4 ^ (j + 1))
            + (x / 4 ^ (m + 1)) * (4 ^ (m - j) * 4 ^ (j + 1)) := by rw [← e1, ← e2]
        _ = x % 4 ^ m + (c * 4 ^ (m - j - 1) + x / 4 ^ (m + 1) * 4 ^ (m - j)) * 4 ^ (j + 1) := by
            ring
    rw [hre, Nat.add_mul_mod_self_right,
      Nat.mod_mod_of_dvd x (pow_dvd_pow 4 (by omega : j + 1 ≤ m))]
  · have hjm' : m + 1 ≤ j := by omega
    have hhigh : (x % 4 ^ m + c * 4 ^ m + (x / 4 ^ (m + 1)) * 4 ^ (m + 1)) / 4 ^ (m + 1)
        = x / 4 ^ (m + 1) := by
      have hlow : x % 4 ^ m + c * 4 ^ m < 4 ^ (m + 1) := by
        have h1 : x % 4 ^ m < 4 ^ m := Nat.mod_lt _ (hpos m)
        have h2 : c * 4 ^ m ≤ 3 * 4 ^ m := Nat.mul_le_mul_right _ (by omega)
        have h3 : (4 : Nat) ^ (m + 1) = 4 * 4 ^ m := by rw [pow_succ]; ring
        omega
      rw [Nat.add_mul_div_right _ _ (hpos (m + 1)), Nat.div_eq_of_lt hlow, Nat.zero_add]
    have hsplit : ∀ y : Nat, y / 4 ^ j = y / 4 ^ (m + 1) / 4 ^ (j - m - 1) := by
      intro y
      rw [Nat.div_div_eq_div_mul, ← pow_add]
      congr 2
      omega
    rw [hsplit, hhigh, ← hsplit]

/-! Properties of the circular window. -/

/-- Euclidean remainder from an explicit decomposition. -/
theorem int_emod_eq (a r t k : Int) (h : a = r + k * t) (h0 : 0 ≤ r) (h1 : r < k) :
    a % k = r := by
  subst h
  rw [Int.add_mul_emod_self_left, Int.emod_eq_of_lt h0 h1]

namespace unbounded

/-- Cell index read by the numRead-th iterator step when the window has k cells and the
start offset is 2*s: the Euclidean remainder of s - 1 - numRead modulo k. -/
def cidx (k s i : Nat) : Nat := (((s : Int) - 1 - (i : Int)) % (k : Int)).toNat

theorem cidx_lt (k s i : Nat) (hk : 1 ≤ k) : cidx k s i < k := by
  unfold cidx
  have h1 : (0 : Int) ≤ ((s : Int) - 1 - (i : Int)) % (k : Int) :=
    Int.emod_nonneg _ (by omega)
  have h2 : ((s : Int) - 1 - (i : Int)) % (k : Int) < (k : Int) :=
    Int.emod_lt_of_pos _ (by omega)
  omega

theorem pushCode_len (km : Kmer) (c : Nat) : (pushCode km c).len = km.len := rfl

theorem size_eq (km : Kmer) (k : Nat) (hlen : km.len = 2 * k) : size km = k := by
  unfold size
  omega

/-- The start offset after a push: the preceding slot, wrapping from 1 to k. -/
theorem pushCode_start (km : Kmer) (c k s : Nat) (hs1 : 1 ≤ s) (hsk : s ≤ k)
    (hlen : km.len = 2 * k) (hstart : km.start = 2 * s) :
    (pushCode km c).start = 2 * (if s = 1 then k else s - 1) := by
  show (if (km.start - 2) % km.len = 0 then km.len else (km.start - 2) % km.len)
      = 2 * (if s = 1 then k else s - 1)
  rw [hlen, hstart]
  have hmod : (2 * s - 2) % (2 * k) = 2 * s - 2 := Nat.mod_eq_of_lt (by omega)
  rw [hmod]
  split_ifs with h1 h2 h2 <;> omega

/-- The bit position of a read, expressed through the cell index. -/
theorem bitPos_cidx (km : Kmer) (k s i : Nat) (hik : i < k)
    (hlen : km.len = 2 * k) (hstart : km.start = 2 * s) :
    bitPos km i = 2 * cidx k s i + 2 := by
  unfold bitPos cidx
  rw [hlen, hstart]
  have hk : 1 ≤ k := by omega
  have hdouble : ((2 * s : Nat) : Int) - (i : Int) * 2 = 2 * ((s : Int) - (i : Int)) := by
    push_cast
    ring
  have hlen2 : ((2 * k : Nat) : Int) = 2 * (k : Int) := by push_cast; ring
  rw [hdouble, hlen2, Int.mul_emod_mul_of_pos _ _ (by omega : (0 : Int) < 2)]
  have hnn : (0 : Int) ≤ ((s : Int) - (i : Int)) % (k : Int) := Int.emod_nonneg _ (by omega)
  have hlt : ((s : Int) - (i : Int)) % (k : Int) < (k : Int) := Int.emod_lt_of_pos _ (by omega)
  rcases eq_or_ne (((s : Int) - (i : Int)) % (k : Int)) 0 with he | he
  · have hcond : 2 * (((s : Int) - (i : Int)) % (k : Int)) = 0 := by rw [he]; ring
    rw [if_pos hcond]
    rcases Int.dvd_of_emod_eq_zero he with ⟨t, ht⟩
    have hv : ((s : Int) - 1 - (i : Int)) % (k : Int) = (k : Int) - 1 :=
      int_emod_eq _ _ (t - 1) _ (by linear_combination ht) (by omega) (by omega)
    rw [hv]
    omega
  · have hcond : ¬(2 * (((s : Int) - (i : Int)) % (k : Int)) = 0) := by omega
    rw [if_neg hcond]
    have hq := Int.ediv_add_emod ((s : Int) - (i : Int)) (k : Int)
    have hv : ((s : Int) - 1 - (i : Int)) % (k : Int) = ((s : Int) - (i : Int)) % (k : Int) - 1 :=
      int_emod_eq _ _ (((s : Int) - (i : Int)) / (k : Int)) _ (by linear_combination hq.symm)
        (by omega) (by omega)
    rw [hv]
    omega

/-- A circular read is a base-4 digit of the store at the cell index. -/
theorem baseCode_cell (km : Kmer) (k s i : Nat) (hik : i < k)
    (hlen : km.len = 2 * k) (hstart : km.start = 2 * s) :
    baseCode km i = km.store / 4 ^ (cidx k s i) % 4 := by
  unfold baseCode
  rw [bitPos_cidx km k s i hik hlen hstart]
  have h : 2 * cidx k s i + 2 - 2 = 2 * cidx k s i := by omega
  rw [h, shift_and_three]

/-- Shifting the start moves read i to what read i+1 saw before the push. -/
theorem cidx_step (k s i : Nat) (hs1 : 1 ≤ s) (hsk : s ≤ k) (hik : i < k - 1) :
    cidx k (if s = 1 then k else s - 1) i = cidx k s (i + 1) := by
  unfold cidx
  split_ifs with h1
  · subst h1
    have hL : (((k : Nat) : Int) - 1 - (i : Int)) % (k : Int) = (k : Int) - 1 - (i : Int) :=
      int_emod_eq _ _ 0 _ (by ring) (by omega) (by omega)
    have hR : (((1 : Nat) : Int) - 1 - ((i + 1 : Nat) : Int)) % (k : Int)
        = (k : Int) - 1 - (i : Int) :=
      int_emod_eq _ _ (-1) _ (by omega) (by omega) (by omega)
    rw [hL, hR]
  · have hs2 : 2 ≤ s := by omega
    have hv : (((s - 1 : Nat) : Int)) - 1 - (i : Int) = (s : Int) - 1 - ((i + 1 : Nat) : Int) := by
      omega
    rw [hv]

/-- Before the push, reads other than the last do not touch the written cell. -/
theorem cidx_step_ne (k s i : Nat) (hs1 : 1 ≤ s) (hsk : s ≤ k) (hik : i < k - 1) :
    cidx k s (i + 1) ≠ s - 1 := by
  unfold cidx
  intro hcontra
  have hk : 1 ≤ k := by omega
  have hnn : (0 : Int) ≤ ((s : Int) - 1 - ((i + 1 : Nat) : Int)) % (k : Int) :=
    Int.emod_nonneg _ (by omega)
  have hlt : ((s : Int) - 1 - ((i + 1 : Nat) : Int)) % (k : Int) < (k : Int) :=
    Int.emod_lt_of_pos _ (by omega)
  have heq : ((s : Int) - 1 - ((i + 1 : Nat) : Int)) % (k : Int) = (s : Int) - 1 := by
    omega
  have hs1' : ((s : Int) - 1) % (k : Int) = (s : Int) - 1 :=
    Int.emod_eq_of_lt (by omega) (by omega)
  have hsub : (((s : Int) - 1 - ((i + 1 : Nat) : Int)) - ((s : Int) - 1)) % (k : Int) = 0 := by
    rw [Int.sub_emod, heq, hs1']
    simp
  have hdvd : (k : Int) ∣ (((s : Int) - 1 - ((i + 1 : Nat) : Int)) - ((s : Int) - 1)) :=
    Int.dvd_of_emod_eq_zero hsub
  have hval : (((s : Int) - 1 - ((i + 1 : Nat) : Int)) - ((s : Int) - 1))
      = -(((i + 1 : Nat) : Int)) := by
    ring
  rw [hval, Int.dvd_neg] at hdvd
  have hle : (k : Int) ≤ ((i + 1 : Nat) : Int) := Int.le_of_dvd (by omega) hdvd
  omega

/-- The last read of the pushed window lands exactly on the written cell. -/
theorem cidx_newest (k s : Nat) (hs1 : 1 ≤ s) (hsk : s ≤ k) :
    cidx k (if s = 1 then k else s - 1) (k - 1) = s - 1 := by
  unfold cidx
  split_ifs with h1
  · subst h1
    have hL : (((k : Nat) : Int) - 1 - ((k - 1 : Nat) : Int)) % (k : Int) = 0 :=
      int_emod_eq _ _ 0 _ (by omega) (by omega) (by omega)
    rw [hL]
    omega
  · have hs2 : 2 ≤ s := by omega
    have hk : 1 ≤ k := by omega
    have hL : ((((s - 1 : Nat)) : Int) - 1 - ((k - 1 : Nat) : Int)) % (k : Int)
        = (s : Int) - 1 :=
      int_emod_eq _ _ (-1) _ (by omega) (by omega) (by omega)
    rw [hL]
    omega

end unbounded

namespace unbounded

/-- One circular push performs the FIFO step on the read-back codes. -/
theorem circ_codes_push (km : Kmer) (c k s : Nat) (hc : c < 4) (hs1 : 1 ≤ s) (hsk : s ≤ k)
    (hlen : km.len = 2 * k) (hstart : km.start = 2 * s) :
    basesCodes (pushCode km c) = fifoStep (basesCodes km) c := by
  have hk : 1 ≤ k := by omega
  have hstore : (pushCode km c).store
      = km.store % 4 ^ (s - 1) + c * 4 ^ (s - 1)
        + (km.store / 4 ^ (s - 1 + 1)) * 4 ^ (s - 1 + 1) := by
    show km.store % 2 ^ (km.start - 2) + (c % 4) * 2 ^ (km.start - 2)
        + ((km.store >>> ((km.start - 2) + 2)) <<< ((km.start - 2) + 2)) = _
    rw [hstart, Nat.mod_eq_of_lt hc]
    have hw : 2 * s - 2 = 2 * (s - 1) := by omega
    rw [hw, write_split]
  have hlen' : (pushCode km c).len = 2 * k := by rw [pushCode_len]; exact hlen
  have hstart' := pushCode_start km c k s hs1 hsk hlen hstart
  have hs' : 1 ≤ (if s = 1 then k else s - 1) ∧ (if s = 1 then k else s - 1) ≤ k := by
    split_ifs <;> omega
  unfold basesCodes
  rw [size_eq _ k hlen, size_eq _ k hlen']
  apply small.map_range_fifo k hk
  · intro i hik
    rw [baseCode_cell (pushCode km c) k (if s = 1 then k else s - 1) i (by omega) hlen' hstart',
      baseCode_cell km k s (i + 1) (by omega) hlen hstart,
      hstore, cidx_step k s i hs1 hsk hik]
    exact cell_write_ne km.store c (s - 1) (cidx k s (i + 1)) hc (cidx_step_ne k s i hs1 hsk hik)
  · rw [baseCode_cell (pushCode km c) k (if s = 1 then k else s - 1) (k - 1) (by omega)
      hlen' hstart', hstore, cidx_newest k s hs1 hsk]
    exact cell_write_eq km.store c (s - 1) hc

/-- A fresh circular window reads back as k zero codes. -/
theorem circ_codes_new (k : Nat) : basesCodes (new k) = List.replicate k 0 := by
  rw [List.eq_replicate_iff]
  constructor
  · unfold basesCodes
    rw [List.length_map, List.length_range]
    show k * 2 / 2 = k
    omega
  · intro b hb
    rcases List.mem_map.mp hb with ⟨i, _, hi⟩
    rw [← hi]
    show (((new k).store) >>> (bitPos (new k) i - 2)) &&& 3 = 0
    show ((0 : Nat) >>> (bitPos (new k) i - 2)) &&& 3 = 0
    rw [Nat.zero_shiftRight, Nat.zero_and]

/-- Pushing a base list: FIFO fold of the codes, plus preservation of the start
invariant (start is twice a slot index in 1..k; the length never changes). -/
theorem circ_run_aux (bs : List Base) : ∀ (km : Kmer) (k s : Nat), 1 ≤ s → s ≤ k →
    km.len = 2 * k → km.start = 2 * s →
    basesCodes (pushAll km bs) = (bs.map Base.toCode).foldl fifoStep (basesCodes km)
    ∧ ∃ s2, 1 ≤ s2 ∧ s2 ≤ k ∧ (pushAll km bs).start = 2 * s2
        ∧ (pushAll km bs).len = 2 * k := by
  induction bs with
  | nil =>
    intro km k s h1 h2 h3 h4
    exact ⟨rfl, s, h1, h2, h4, h3⟩
  | cons b bs ih =>
    intro km k s h1 h2 h3 h4
    have hstep := circ_codes_push km b.toCode k s (Base.toCode_lt b) h1 h2 h3 h4
    have hstart' := pushCode_start km b.toCode k s h1 h2 h3 h4
    have hlen' : (pushCode km b.toCode).len = 2 * k := by rw [pushCode_len]; exact h3
    have hs' : 1 ≤ (if s = 1 then k else s - 1) ∧ (if s = 1 then k else s - 1) ≤ k := by
      split_ifs <;> omega
    have hrec := ih (pushCode km b.toCode) k (if s = 1 then k else s - 1) hs'.1 hs'.2
      hlen' hstart'
    refine ⟨?_, hrec.2⟩
    show basesCodes (pushAll (pushCode km b.toCode) bs)
        = (Base.toCode b :: bs.map Base.toCode).foldl fifoStep (basesCodes km)
    rw [List.foldl_cons, hrec.1, hstep]

/-- Read-back codes of a freshly pushed circular window. -/
theorem circ_codes_pushAll (k : Nat) (bs : List Base) (hk : 1 ≤ k) :
    basesCodes (pushAll (new k) bs) = fifoRun k (bs.map Base.toCode) := by
  have h := (circ_run_aux bs (new k) k k (by omega) le_rfl (by show k * 2 = 2 * k; ring)
    (by show k * 2 = 2 * k; ring)).1
  rw [h, circ_codes_new]
  rfl

/-- Start-offset invariant after any push sequence from a fresh window. -/
theorem start_inv (k : Nat) (bs : List Base) (hk : 1 ≤ k) :
    ∃ s2, 1 ≤ s2 ∧ s2 ≤ k ∧ (pushAll (new k) bs).start = 2 * s2
      ∧ (pushAll (new k) bs).len = 2 * k :=
  (circ_run_aux bs (new k) k k (by omega) le_rfl (by show k * 2 = 2 * k; ring)
    (by show k * 2 = 2 * k; ring)).2

/-- Reads of a window whose start equals its length are plain digit reads. -/
theorem baseCode_fresh (km : Kmer) (k i : Nat) (hik : i < k)
    (hlen : km.len = 2 * k) (hstart : km.start = 2 * k) :
    baseCode km i = km.store / 4 ^ (k - 1 - i) % 4 := by
  rw [baseCode_cell km k k i hik hlen hstart]
  have hidx : cidx k k i = k - 1 - i := by
    unfold cidx
    have hL : (((k : Nat) : Int) - 1 - (i : Int)) % (k : Int) = ((k - 1 - i : Nat) : Int) :=
      int_emod_eq _ _ 0 _ (by omega) (by omega) (by omega)
    rw [hL]
    omega
  rw [hidx]

end unbounded

/-! Properties of the bounded window (push and reads modelled from the spec). -/

namespace growable

theorem push_length (km : Kmer) (b : Base) (h : 2 ≤ km.inner.length) :
    (push km b).inner.length = km.inner.length := by
  show (km.inner.drop 2 ++ [b.toCode.testBit 1, b.toCode.testBit 0]).length = km.inner.length
  rw [List.length_append, List.length_drop]
  simp
  omega

/-- The high-then-low bit pair appended by a push reassembles to the pushed code. -/
theorem bit_pair_code (b : Base) :
    2 * (cond (b.toCode.testBit 1) 1 0) + cond (b.toCode.testBit 0) 1 0 = b.toCode := by
  cases b <;> decide

theorem getD_shift (l : List Bool) (n j : Nat) (d : Bool) :
    (l.drop n).getD j d = l.getD (n + j) d := by
  rw [List.getD_eq_getElem?_getD, List.getD_eq_getElem?_getD, List.getElem?_drop]

/-- One spec-modelled push performs the FIFO step on the read-back codes. -/
theorem grow_codes_push (km : Kmer) (b : Base) (k : Nat) (hk : 1 ≤ k)
    (hlen : km.inner.length = 2 * k) :
    basesCodes (push km b) = fifoStep (basesCodes km) b.toCode := by
  have hlen' : (push km b).inner.length = 2 * k := by
    rw [push_length km b (by omega)]
    exact hlen
  unfold basesCodes
  rw [hlen, hlen']
  have h2 : 2 * k / 2 = k := by omega
  rw [h2]
  apply small.map_range_fifo k hk
  · intro i hik
    show 2 * (cond ((push km b).inner.getD (2 * i) false) 1 0)
        + cond ((push km b).inner.getD (2 * i + 1) false) 1 0
      = 2 * (cond (km.inner.getD (2 * (i + 1)) false) 1 0)
        + cond (km.inner.getD (2 * (i + 1) + 1) false) 1 0
    have hdlen : (km.inner.drop 2).length = 2 * k - 2 := by
      rw [List.length_drop, hlen]
    have hA : (push km b).inner.getD (2 * i) false = km.inner.getD (2 * (i + 1)) false := by
      show (km.inner.drop 2 ++ [b.toCode.testBit 1, b.toCode.testBit 0]).getD (2 * i) false = _
      rw [List.getD_append _ _ _ _ (by omega : 2 * i < (km.inner.drop 2).length),
        getD_shift]
      congr 1
      omega
    have hB : (push km b).inner.getD (2 * i + 1) false
        = km.inner.getD (2 * (i + 1) + 1) false := by
      show (km.inner.drop 2 ++ [b.toCode.testBit 1, b.toCode.testBit 0]).getD (2 * i + 1) false = _
      rw [List.getD_append _ _ _ _ (by omega : 2 * i + 1 < (km.inner.drop 2).length),
        getD_shift]
      congr 1
      omega
    rw [hA, hB]
  · show 2 * (cond ((push km b).inner.getD (2 * (k - 1)) false) 1 0)
        + cond ((push km b).inner.getD (2 * (k - 1) + 1) false) 1 0 = b.toCode
    have hdlen : (km.inner.drop 2).length = 2 * k - 2 := by
      rw [List.length_drop, hlen]
    have hA : (push km b).inner.getD (2 * (k - 1)) false = b.toCode.testBit 1 := by
      show (km.inner.drop 2 ++ [b.toCode.testBit 1, b.toCode.testBit 0]).getD (2 * (k - 1)) false = _
      rw [List.getD_append_right _ _ _ _ (by omega : (km.inner.drop 2).length ≤ 2 * (k - 1))]
      have hz : 2 * (k - 1) - (km.inner.drop 2).length = 0 := by omega
      rw [hz]
      rfl
    have hB : (push km b).inner.getD (2 * (k - 1) + 1) false = b.toCode.testBit 0 := by
      show (km.inner.drop 2 ++ [b.toCode.testBit 1, b.toCode.testBit 0]).getD (2 * (k - 1) + 1) false = _
      rw [List.getD_append_right _ _ _ _ (by omega : (km.inner.drop 2).length ≤ 2 * (k - 1) + 1)]
      have hz : 2 * (k - 1) + 1 - (km.inner.drop 2).length = 1 := by omega
      rw [hz]
      rfl
    rw [hA, hB, bit_pair_code]

/-- A fresh bounded window reads back as k zero codes. -/
theorem grow_codes_new (k : Nat) : basesCodes (new k) = List.replicate k 0 := by
  rw [List.eq_replicate_iff]
  constructor
  · unfold basesCodes
    rw [List.length_map, List.length_range]
    show (List.replicate (k * 2) false).length / 2 = k
    rw [List.length_replicate]
    omega
  · intro x hx
    rcases List.mem_map.mp hx with ⟨i, _, hi⟩
    rw [← hi]
    show 2 * (cond ((new k).inner.getD (2 * i) false) 1 0)
        + cond ((new k).inner.getD (2 * i + 1) false) 1 0 = 0
    have hrep : ∀ j : Nat, (List.replicate (k * 2) false).getD j false = false := by
      intro j
      rw [List.getD_eq_getElem?_getD, List.getElem?_replicate]
      split_ifs <;> rfl
    show 2 * (cond ((List.replicate (k * 2) false).getD (2 * i) false) 1 0)
        + cond ((List.replicate (k * 2) false).getD (2 * i + 1) false) 1 0 = 0
    rw [hrep, hrep]
    rfl

theorem grow_run_aux (bs : List Base) : ∀ (km : Kmer) (k : Nat), 1 ≤ k →
    km.inner.length = 2 * k →
    basesCodes (pushAll km bs) = (bs.map Base.toCode).foldl fifoStep (basesCodes km)
    ∧ (pushAll km bs).inner.length = 2 * k := by
  induction bs with
  | nil =>
    intro km k hk hlen
    exact ⟨rfl, hlen⟩
  | cons b bs ih =>
    intro km k hk hlen
    have hlen' : (push km b).inner.length = 2 * k := by
      rw [push_length km b (by omega)]
      exact hlen
    have hrec := ih (push km b) k hk hlen'
    refine ⟨?_, hrec.2⟩
    show basesCodes (pushAll (push km b) bs)
        = (Base.toCode b :: bs.map Base.toCode).foldl fifoStep (basesCodes km)
    rw [List.foldl_cons, hrec.1, grow_codes_push km b k hk hlen]

/-- Read-back codes of a freshly pushed bounded window. -/
theorem grow_codes_pushAll (k : Nat) (bs : List Base) (hk : 1 ≤ k) :
    basesCodes (pushAll (new k) bs) = fifoRun k (bs.map Base.toCode) := by
  have hlen : (new k).inner.length = 2 * k := by
    show (List.replicate (k * 2) false).length = 2 * k
    rw [List.length_replicate]
    ring
  have h := (grow_run_aux bs (new k) k hk hlen).1
  rw [h, grow_codes_new]
  rfl

end growable

/-! Properties of the rolling sequence. -/

/-- Mapping reads over the index range recovers the list itself. -/
theorem range_map_getD {α : Type} (l : List α) (d : α) (f : Nat → α)
    (h : ∀ j, j < l.length → f j = l.getD j d) :
    (List.range l.length).map f = l := by
  apply List.ext_getElem
  · simp
  · intro i h1 h2
    rw [List.getElem_map, List.getElem_range, h i h2, List.getD_eq_getElem l d h2]

namespace seq

/-- The two bits appended per pushed base, in store order (low bit first). -/
def pairBits (b : Base) : List Bool := [(baseBits b).2, (baseBits b).1]

theorem store_pushList (bs : List Base) : ∀ s : Sequence,
    (bs.foldl push s).store = s.store ++ bs.flatMap pairBits := by
  induction bs with
  | nil => intro s; simp
  | cons b bs ih =>
    intro s
    rw [List.foldl_cons, ih (push s b), List.flatMap_cons]
    show (s.store ++ pairBits b) ++ bs.flatMap pairBits = _
    rw [List.append_assoc]

theorem store_ofBases (bs : List Base) : (ofBases bs).store = bs.flatMap pairBits := by
  unfold ofBases
  rw [store_pushList bs new]
  rfl

theorem length_flat (bs : List Base) : (bs.flatMap pairBits).length = 2 * bs.length := by
  induction bs with
  | nil => rfl
  | cons b bs ih =>
    rw [List.flatMap_cons, List.length_append, ih]
    show 2 + 2 * bs.length = 2 * (bs.length + 1)
    ring

/-- The j-th 2-bit chunk of the packed store is the code of the j-th pushed base. -/
theorem chunk_flat (bs : List Base) : ∀ j, j < bs.length →
    (cond ((bs.flatMap pairBits).getD (2 * j) false) 1 0)
      + 2 * cond ((bs.flatMap pairBits).getD (2 * j + 1) false) 1 0
    = (bs.getD j Base.C).toCode := by
  induction bs with
  | nil => intro j hj; simp at hj
  | cons b bs ih =>
    intro j hj
    rw [List.flatMap_cons]
    match j with
    | 0 =>
      have h0 : (pairBits b ++ bs.flatMap pairBits).getD 0 false = (baseBits b).2 := by
        rw [List.getD_append _ _ _ _ (by simp [pairBits])]
        rfl
      have h1 : (pairBits b ++ bs.flatMap pairBits).getD 1 false = (baseBits b).1 := by
        rw [List.getD_append _ _ _ _ (by simp [pairBits])]
        rfl
      show (cond ((pairBits b ++ bs.flatMap pairBits).getD 0 false) 1 0)
          + 2 * cond ((pairBits b ++ bs.flatMap pairBits).getD 1 false) 1 0
        = ((b :: bs).getD 0 Base.C).toCode
      rw [h0, h1]
      cases b <;> rfl
    | j' + 1 =>
      have hj' : j' < bs.length := by simpa using Nat.lt_of_succ_lt_succ hj
      have hplen : (pairBits b).length = 2 := by simp [pairBits]
      have h0 : (pairBits b ++ bs.flatMap pairBits).getD (2 * (j' + 1)) false
          = (bs.flatMap pairBits).getD (2 * j') false := by
        rw [List.getD_append_right _ _ _ _ (by omega : (pairBits b).length ≤ 2 * (j' + 1))]
        congr 1
      have h1 : (pairBits b ++ bs.flatMap pairBits).getD (2 * (j' + 1) + 1) false
          = (bs.flatMap pairBits).getD (2 * j' + 1) false := by
        rw [List.getD_append_right _ _ _ _ (by omega : (pairBits b).length ≤ 2 * (j' + 1) + 1)]
        congr 1
      rw [h0, h1]
      show _ = (bs.getD j' Base.C).toCode
      exact ih j' hj'

/-- The chunk codes of a pushed sequence are exactly the pushed base codes, in order. -/
theorem chunkCodes_ofBases (bs : List Base) :
    chunkCodes (ofBases bs) = bs.map Base.toCode := by
  unfold chunkCodes
  have hlen : (ofBases bs).store.length / 2 = (bs.map Base.toCode).length := by
    rw [store_ofBases, length_flat, List.length_map]
    omega
  rw [hlen]
  apply range_map_getD (bs.map Base.toCode) 0 _
  intro j hj
  have hj' : j < bs.length := by simpa using hj
  show chunkLoad (ofBases bs) j = _
  unfold chunkLoad
  rw [store_ofBases]
  rw [chunk_flat bs j hj']
  rw [List.getD_eq_getElem _ _ hj, List.getElem_map, List.getD_eq_getElem _ _ hj']

/-- Unfolding the yield loop: the i-th yielded k-mer is the seed pushed with the first
i+1 remaining codes. -/
theorem go_spec (cs : List Nat) : ∀ km : small.Kmer,
    go km cs = (List.range cs.length).map
      (fun i => (cs.take (i + 1)).foldl small.pushCode km) := by
  induction cs with
  | nil => intro km; rfl
  | cons c cs ih =>
    intro km
    show small.pushCode km c :: go (small.pushCode km c) cs = _
    rw [ih (small.pushCode km c)]
    show _ = (List.range (cs.length + 1)).map
      (fun i => ((c :: cs).take (i + 1)).foldl small.pushCode km)
    rw [List.range_succ_eq_map, List.map_cons, List.map_map]
    rfl

end seq

theorem small.pushAll_append (km : small.Kmer) (xs ys : List Base) :
    small.pushAll km (xs ++ ys) = small.pushAll (small.pushAll km xs) ys :=
  List.foldl_append _ _ _ _

/-- The window list produced by kmers over a pushed sequence: one window per index i up
to N - (K - 1), the i-th being a fresh window pushed with the first K - 1 + (i + 1)
bases. -/
theorem seq.kmers_eq (K : Nat) (L : List Base) :
    seq.kmers K (seq.ofBases L)
      = (List.range (L.length - (K - 1))).map
          (fun i => small.pushAll (small.new K) (L.take (K - 1 + (i + 1)))) := by
  unfold kmers
  rw [chunkCodes_ofBases, ← List.map_take, ← List.map_drop, go_spec, List.foldl_map,
    List.length_map, List.length_drop]
  apply List.map_congr_left
  intro i hi
  rw [← List.map_take, List.foldl_map]
  show small.pushAll (small.pushAll (small.new K) (L.take (K - 1))) ((L.drop (K - 1)).take (i + 1))
      = small.pushAll (small.new K) (L.take (K - 1 + (i + 1)))
  rw [← small.pushAll_append, ← List.take_add]

/-! Support lemmas for masking, byte decoding, and range safety. -/

theorem getD_range_map {α : Type} (n i : Nat) (f : Nat → α) (d : α) (h : i < n) :
    ((List.range n).map f).getD i d = f i := by
  have hlen : i < ((List.range n).map f).length := by
    rw [List.length_map, List.length_range]
    exact h
  rw [List.getD_eq_getElem _ _ hlen, List.getElem_map, List.getElem_range]

theorem Base.from_u8_unchecked_isSome (c : Nat) (h : c < 4) :
    (Base.from_u8_unchecked c).isSome = true := by
  interval_cases c <;> rfl

theorem codes_of_bases_lt (bs : List Base) : ∀ c ∈ bs.map Base.toCode, c < 4 := by
  intro c hc
  rcases List.mem_map.mp hc with ⟨b, _, hb⟩
  rw [← hb]
  exact Base.toCode_lt b

namespace small

/-- Masking the inner value keeps exactly the low 2k bits. -/
theorem into_masked_eq (km : Kmer) (h : km.k ≤ 32) :
    into_masked km = km.inner % 4 ^ km.k := by
  unfold into_masked
  rw [saturating_bitmask_eq (by omega : km.k * 2 ≤ 64)]
  have h2 : (2 : Nat) ^ (km.k * 2) = 4 ^ km.k := by
    rw [Nat.mul_comm, two_pow_double]
  rw [h2]
  have h3 := Nat.and_pow_two_sub_one_eq_mod km.inner (km.k * 2)
  rw [h2] at h3
  exact h3

theorem baseCode_lt (km : Kmer) (pos : Nat) : baseCode km pos < 4 := by
  rw [baseCode_eq_digit]
  exact Nat.mod_lt _ (by norm_num)

/-- Masked value of a window freshly pushed with a base list: the accumulated code
value reduced mod 4^k. -/
theorem into_masked_pushAll (k : Nat) (bs : List Base) (hk32 : k ≤ 32) :
    into_masked (pushAll (new k) bs) = pra 0 (bs.map Base.toCode) % 4 ^ k := by
  have hkk : (pushAll (new k) bs).k = k := pushAll_k bs (new k)
  have hmask := into_masked_eq (pushAll (new k) bs) (by rw [hkk]; exact hk32)
  rw [hmask, hkk, inner_pushAll bs (new k) (by norm_num [new])]
  show pra 0 (bs.map Base.toCode) % 2 ^ 64 % 4 ^ k = _
  rw [two_pow_64_eq]
  exact Nat.mod_mod_of_dvd _ (Nat.pow_dvd_pow 4 hk32)

/-- The low 4^l remainder of the accumulated value of a push list only retains the last
l pushed codes. -/
theorem pra_mod_drop (cs : List Nat) (l : Nat) (hl : l ≤ cs.length) :
    pra 0 cs % 4 ^ l = pra 0 (cs.drop (cs.length - l)) % 4 ^ l := by
  conv_lhs => rw [← List.take_append_drop (cs.length - l) cs]
  rw [pra_append, pra_decomp (cs.drop (cs.length - l))]
  have hlen : (cs.drop (cs.length - l)).length = l := by
    rw [List.length_drop]
    omega
  rw [hlen, Nat.mul_comm, Nat.mul_add_mod]

end small

namespace unbounded

theorem circ_baseCode_lt (km : Kmer) (i : Nat) : baseCode km i < 4 := by
  unfold baseCode
  rw [and_three]
  exact Nat.mod_lt _ (by norm_num)

/-- The codes packed by byteBases are 2-bit values. -/
theorem byteBases_lt (bytes : List Nat) : ∀ c ∈ bytes.flatMap byteBases, c < 4 := by
  intro c hc
  rcases List.mem_flatMap.mp hc with ⟨b, _, hb⟩
  simp only [byteBases, List.mem_cons, List.not_mem_nil, or_false] at hb
  rcases hb with h | h | h | h <;> omega

theorem length_flat_byteBases (bytes : List Nat) :
    (bytes.flatMap byteBases).length = 4 * bytes.length := by
  induction bytes with
  | nil => rfl
  | cons b bs ih =>
    rw [List.flatMap_cons, List.length_append, ih]
    show 4 + 4 * bs.length = 4 * (bs.length + 1)
    ring

/-- The store built by from_bytes accumulates the 2-bit groups of the bytes in wire
order (first byte first, most significant pair first). -/
theorem from_bytes_store (bytes : List Nat) (hb : ∀ b ∈ bytes, b < 256) :
    (from_bytes bytes).store = pra 0 (bytes.flatMap byteBases) := by
  show bytes.foldl (fun acc b => acc * 256 + b % 256) 0 = _
  have haux : ∀ (bs : List Nat), (∀ b ∈ bs, b < 256) → ∀ acc : Nat,
      bs.foldl (fun acc b => acc * 256 + b % 256) acc = pra acc (bs.flatMap byteBases) := by
    intro bs
    induction bs with
    | nil => intro _ acc; rfl
    | cons b bs ih =>
      intro hlt acc
      have hb256 : b < 256 := hlt b (List.mem_cons_self b bs)
      rw [List.foldl_cons, List.flatMap_cons, pra_append,
        ih (fun x hx => hlt x (List.mem_cons_of_mem _ hx)) (acc * 256 + b % 256)]
      congr 1
      show acc * 256 + b % 256
          = (((acc * 4 + b / 64 % 4) * 4 + b / 16 % 4) * 4 + b / 4 % 4) * 4 + b % 4
      ring_nf
      omega
  exact haux bytes hb 0

/-- The circular reads of a from_bytes window are the wire-order 2-bit groups. -/
theorem from_bytes_codes (bytes : List Nat) (hb : ∀ b ∈ bytes, b < 256) :
    basesCodes (from_bytes bytes) = bytes.flatMap byteBases := by
  unfold basesCodes
  have hsize : size (from_bytes bytes) = 4 * bytes.length := by
    show bytes.length * 8 / 2 = 4 * bytes.length
    omega
  rw [hsize, ← length_flat_byteBases bytes]
  apply range_map_getD
  intro j hj
  have hlen4 : (bytes.flatMap byteBases).length = 4 * bytes.length :=
    length_flat_byteBases bytes
  have hj4 : j < 4 * bytes.length := by omega
  rw [baseCode_fresh (from_bytes bytes) (4 * bytes.length) j hj4
    (by show bytes.length * 8 = 2 * (4 * bytes.length); ring)
    (by show bytes.length * 8 = 2 * (4 * bytes.length); ring)]
  rw [from_bytes_store bytes hb]
  have hdig := pra_digit (bytes.flatMap byteBases) (byteBases_lt bytes) j (by omega)
  rw [hlen4] at hdig
  exact hdig

end unbounded

theorem seq.chunkLoad_lt (s : seq.Sequence) (j : Nat) : seq.chunkLoad s j < 4 := by
  unfold seq.chunkLoad
  cases s.store.getD (2 * j) false <;> cases s.store.getD (2 * j + 1) false <;> norm_num

namespace small

/-- Reinterpreting the same inner value at a smaller length keeps the trailing reads. -/
theorem codes_shrink (k l v : Nat) (hlk : l ≤ k) :
    basesCodes ⟨l, v⟩ = (basesCodes ⟨k, v⟩).drop (k - l) := by
  have hsplit : List.range k = List.range (k - l) ++ (List.range l).map (fun x => (k - l) + x) := by
    conv_lhs => rw [show k = (k - l) + l from by omega]
    exact List.range_add (k - l) l
  show List.map (baseCode ⟨l, v⟩) (List.range l)
      = (List.map (baseCode ⟨k, v⟩) (List.range k)).drop (k - l)
  rw [hsplit, List.map_append, List.drop_left' (by simp), List.map_map]
  apply List.map_congr_left
  intro i hi
  have hil : i < l := List.mem_range.mp hi
  show baseCode ⟨l, v⟩ i = baseCode ⟨k, v⟩ (k - l + i)
  rw [baseCode_eq_digit, baseCode_eq_digit]
  show v / 4 ^ (l - i - 1) % 4 = v / 4 ^ (k - (k - l + i) - 1) % 4
  have he : l - i - 1 = k - (k - l + i) - 1 := by omega
  rw [he]

/-- Read-back codes only depend on the length field and the inner value. -/
theorem basesCodes_of_k_eq (km : Kmer) (l : Nat) (h : km.k = l) :
    basesCodes ⟨l, km.inner⟩ = basesCodes km := by
  subst h
  rfl

/-- The trailing reads of a reinterpreted window are the last pushed codes. -/
theorem codes_shrink_pushAll (k l : Nat) (bs : List Base) (hl1 : 1 ≤ l) (hlk : l ≤ k)
    (hk32 : k ≤ 32) (hln : l ≤ bs.length) :
    basesCodes ⟨l, (pushAll (new k) bs).inner⟩
      = (bs.drop (bs.length - l)).map Base.toCode := by
  have hmod : (pushAll (new k) bs).inner % 4 ^ l
      = (pushAll (new l) (bs.drop (bs.length - l))).inner % 4 ^ l := by
    rw [inner_pushAll bs (new k) (by norm_num [new]),
      inner_pushAll (bs.drop (bs.length - l)) (new l) (by norm_num [new])]
    show pra 0 (bs.map Base.toCode) % 2 ^ 64 % 4 ^ l
        = pra 0 ((bs.drop (bs.length - l)).map Base.toCode) % 2 ^ 64 % 4 ^ l
    rw [two_pow_64_eq, Nat.mod_mod_of_dvd _ (Nat.pow_dvd_pow 4 (by omega : l ≤ 32)),
      Nat.mod_mod_of_dvd _ (Nat.pow_dvd_pow 4 (by omega : l ≤ 32))]
    rw [List.map_drop]
    have hlen : bs.length - l = (bs.map Base.toCode).length - l := by
      rw [List.length_map]
    rw [hlen]
    exact small.pra_mod_drop (bs.map Base.toCode) l (by rw [List.length_map]; exact hln)
  rw [basesCodes_mod l _ _ hmod,
    basesCodes_of_k_eq (pushAll (new l) (bs.drop (bs.length - l))) l
      (pushAll_k (bs.drop (bs.length - l)) (new l) : _ = l),
    codes_pushAll_new l (bs.drop (bs.length - l)) hl1 (by omega)]
  apply fifoRun_of_length
  rw [List.length_map, List.length_drop]
  omega

end small

/-- Claim C1: for every window length K (inline range 1..=32) and every push-sequence
prefix, the inline, bounded and circular representations produce identical symbols()
output, in the same oldest-to-newest order. -/
theorem c1_cross_representation_equivalence (K n : Nat) (bs : List Base)
    (hK1 : 1 ≤ K) (hK32 : K ≤ 32) :
    small.bases (small.pushAll (small.new K) (bs.take n))
      = unbounded.bases (unbounded.pushAll (unbounded.new K) (bs.take n))
    ∧ growable.bases (growable.pushAll (growable.new K) (bs.take n))
      = unbounded.bases (unbounded.pushAll (unbounded.new K) (bs.take n)) := by
  have h1 := small.codes_pushAll_new K (bs.take n) hK1 hK32
  have h2 := unbounded.circ_codes_pushAll K (bs.take n) hK1
  have h3 := growable.grow_codes_pushAll K (bs.take n) hK1
  constructor
  · show (small.basesCodes _).map Base.from_u8_unchecked
        = (unbounded.basesCodes _).map Base.from_u8_unchecked
    rw [h1, h2]
  · show (growable.basesCodes _).map Base.from_u8_unchecked
        = (unbounded.basesCodes _).map Base.from_u8_unchecked
    rw [h2, h3]

/-- Witness for C1 at K = 2 and the push sequence A, G, T. -/
theorem c1_witness :
    (1 ≤ 2 ∧ 2 ≤ 32)
    ∧ (small.bases (small.pushAll (small.new 2) ([Base.A, Base.G, Base.T].take 3))
        = unbounded.bases (unbounded.pushAll (unbounded.new 2) ([Base.A, Base.G, Base.T].take 3))
      ∧ growable.bases (growable.pushAll (growable.new 2) ([Base.A, Base.G, Base.T].take 3))
        = unbounded.bases (unbounded.pushAll (unbounded.new 2) ([Base.A, Base.G, Base.T].take 3))) :=
  ⟨⟨by decide, by decide⟩,
    c1_cross_representation_equivalence 2 3 [Base.A, Base.G, Base.T] (by decide) (by decide)⟩

/-- Claim C2: for K in 1..=32 and any K bases, pushing them in order into a fresh inline
window and reading symbols() yields exactly that base sequence, oldest first. -/
theorem c2_round_trip (K : Nat) (bs : List Base) (hK1 : 1 ≤ K) (hK32 : K ≤ 32)
    (hlen : bs.length = K) :
    small.bases (small.pushAll (small.new K) bs) = bs.map some := by
  show (small.basesCodes _).map Base.from_u8_unchecked = bs.map some
  rw [small.codes_pushAll_new K bs hK1 hK32,
    fifoRun_of_length K (bs.map Base.toCode) (by rw [List.length_map]; exact hlen),
    List.map_map]
  apply List.map_congr_left
  intro b _
  exact Base.from_u8_unchecked_toCode b

/-- Witness for C2 at K = 3 with bases A, G, T. -/
theorem c2_witness :
    (1 ≤ 3 ∧ 3 ≤ 32 ∧ ([Base.A, Base.G, Base.T] : List Base).length = 3)
    ∧ small.bases (small.pushAll (small.new 3) [Base.A, Base.G, Base.T])
        = [Base.A, Base.G, Base.T].map some :=
  ⟨⟨by decide, by decide, by decide⟩,
    c2_round_trip 3 [Base.A, Base.G, Base.T] (by decide) (by decide) (by decide)⟩

/-- Claim C5: the masked value after K + M pushes equals the masked value of a fresh
window pushed with only the last K of them; masking reflects only the last K pushes. -/
theorem c5_masking_stability (K M : Nat) (bs : List Base) (hK1 : 1 ≤ K) (hK32 : K ≤ 32)
    (hlen : bs.length = K + M) :
    small.into_masked (small.pushAll (small.new K) bs)
      = small.into_masked (small.pushAll (small.new K) (bs.drop M)) := by
  rw [small.into_masked_pushAll K bs hK32, small.into_masked_pushAll K (bs.drop M) hK32,
    List.map_drop]
  have hM : M = (bs.map Base.toCode).length - K := by
    rw [List.length_map]
    omega
  rw [hM]
  exact small.pra_mod_drop (bs.map Base.toCode) K (by rw [List.length_map]; omega)

/-- Witness for C5 at K = 2, M = 1 with bases A, G, T. -/
theorem c5_witness :
    (1 ≤ 2 ∧ 2 ≤ 32 ∧ ([Base.A, Base.G, Base.T] : List Base).length = 2 + 1)
    ∧ small.into_masked (small.pushAll (small.new 2) [Base.A, Base.G, Base.T])
        = small.into_masked (small.pushAll (small.new 2) ([Base.A, Base.G, Base.T].drop 1)) :=
  ⟨⟨by decide, by decide, by decide⟩,
    c5_masking_stability 2 1 [Base.A, Base.G, Base.T] (by decide) (by decide) (by decide)⟩

/-- Claim C6: shrink_to(L) on an inline window of length K keeps the same bits and
reinterprets them as the last L symbols: the resulting window's symbols are the last L
of the original symbols() output, equivalently the last L pushed bases when at least L
were pushed; for L greater than K the operation fails. -/
theorem c6_shrink_to (K L : Nat) (bs : List Base) (hK1 : 1 ≤ K) (hK32 : K ≤ 32) :
    (L ≤ K →
      small.shrink_to (small.pushAll (small.new K) bs) L
          = some ⟨L, (small.pushAll (small.new K) bs).inner⟩
        ∧ small.bases ⟨L, (small.pushAll (small.new K) bs).inner⟩
          = (small.bases (small.pushAll (small.new K) bs)).drop (K - L)
        ∧ (1 ≤ L → L ≤ bs.length →
            small.bases ⟨L, (small.pushAll (small.new K) bs).inner⟩
              = (bs.drop (bs.length - L)).map some))
    ∧ (K < L → small.shrink_to (small.pushAll (small.new K) bs) L = none) := by
  have hkk : (small.pushAll (small.new K) bs).k = K := small.pushAll_k bs (small.new K)
  constructor
  · intro hLK
    refine ⟨?_, ?_, ?_⟩
    · unfold small.shrink_to
      rw [hkk, if_pos hLK]
    · show (small.basesCodes ⟨L, _⟩).map Base.from_u8_unchecked
          = ((small.basesCodes _).map Base.from_u8_unchecked).drop (K - L)
      rw [small.codes_shrink K L _ hLK,
        small.basesCodes_of_k_eq (small.pushAll (small.new K) bs) K hkk,
        List.map_drop]
    · intro hL1 hLb
      show (small.basesCodes ⟨L, _⟩).map Base.from_u8_unchecked = _
      rw [small.codes_shrink_pushAll K L bs hL1 hLK hK32 hLb, List.map_map]
      apply List.map_congr_left
      intro b _
      exact Base.from_u8_unchecked_toCode b
  · intro hKL
    unfold small.shrink_to
    rw [hkk, if_neg (by omega)]

/-- Witness for C6 at K = 3, L = 2 with bases A, G, T. -/
theorem c6_witness :
    (1 ≤ 3 ∧ 3 ≤ 32)
    ∧ ((2 ≤ 3 →
        small.shrink_to (small.pushAll (small.new 3) [Base.A, Base.G, Base.T]) 2
            = some ⟨2, (small.pushAll (small.new 3) [Base.A, Base.G, Base.T]).inner⟩
          ∧ small.bases ⟨2, (small.pushAll (small.new 3) [Base.A, Base.G, Base.T]).inner⟩
            = (small.bases (small.pushAll (small.new 3) [Base.A, Base.G, Base.T])).drop (3 - 2)
          ∧ (1 ≤ 2 → 2 ≤ ([Base.A, Base.G, Base.T] : List Base).length →
              small.bases ⟨2, (small.pushAll (small.new 3) [Base.A, Base.G, Base.T]).inner⟩
                = ([Base.A, Base.G, Base.T].drop (([Base.A, Base.G, Base.T] : List Base).length - 2)).map some))
      ∧ (3 < 2 → small.shrink_to (small.pushAll (small.new 3) [Base.A, Base.G, Base.T]) 2 = none)) :=
  ⟨⟨by decide, by decide⟩, c6_shrink_to 3 2 [Base.A, Base.G, Base.T] (by decide) (by decide)⟩

/-- Claim C10: two raw u64 seeds that agree on their low 2K bits are observationally
equal through symbols() and masked_value(), and symbols() has exactly K entries: the
high garbage bits never influence these outputs. -/
theorem c10_low_bits_determine (K v w : Nat) (hK1 : 1 ≤ K) (hK32 : K ≤ 32)
    (hv : v < 2 ^ 64) (hw : w < 2 ^ 64) (hcong : v % 2 ^ (2 * K) = w % 2 ^ (2 * K)) :
    small.bases (small.fromU64 K v) = small.bases (small.fromU64 K w)
    ∧ small.into_masked (small.fromU64 K v) = small.into_masked (small.fromU64 K w)
    ∧ (small.bases (small.fromU64 K v)).length = K := by
  rw [two_pow_double K] at hcong
  refine ⟨?_, ?_, ?_⟩
  · show (small.basesCodes ⟨K, v⟩).map Base.from_u8_unchecked
        = (small.basesCodes ⟨K, w⟩).map Base.from_u8_unchecked
    rw [small.basesCodes_mod K v w hcong]
  · rw [small.into_masked_eq (small.fromU64 K v) hK32,
      small.into_masked_eq (small.fromU64 K w) hK32]
    exact hcong
  · show ((small.basesCodes ⟨K, v⟩).map Base.from_u8_unchecked).length = K
    rw [List.length_map]
    show ((List.range K).map _).length = K
    rw [List.length_map, List.length_range]

/-- Witness for C10 at K = 1 with v = 5 and w = 1 (agreeing low 2 bits). -/
theorem c10_witness :
    (1 ≤ 1 ∧ 1 ≤ 32 ∧ 5 < 2 ^ 64 ∧ 1 < 2 ^ 64 ∧ 5 % 2 ^ (2 * 1) = 1 % 2 ^ (2 * 1))
    ∧ (small.bases (small.fromU64 1 5) = small.bases (small.fromU64 1 1)
      ∧ small.into_masked (small.fromU64 1 5) = small.into_masked (small.fromU64 1 1)
      ∧ (small.bases (small.fromU64 1 5)).length = 1) :=
  ⟨⟨by decide, by decide, by norm_num, by norm_num, by decide⟩,
    c10_low_bits_determine 1 5 1 (by decide) (by decide) (by norm_num) (by norm_num) (by decide)⟩

/-- Claim C3: kmers over a sequence of N pushed bases yields exactly max(N-K+1, 0)
windows, window i reads back symbols [i, i+K) of the sequence, and a sequence shorter
than K yields the empty list (the seeding loop is total, no underflow). -/
theorem c3_sliding_windows (K : Nat) (L : List Base) (hK1 : 1 ≤ K) (hK32 : K ≤ 32) :
    ((seq.kmers K (seq.ofBases L)).length : Int) = max ((L.length : Int) - K + 1) 0
    ∧ (∀ i, i < (seq.kmers K (seq.ofBases L)).length →
        small.bases ((seq.kmers K (seq.ofBases L)).getD i (small.new K))
          = ((L.drop i).take K).map some)
    ∧ (L.length < K → seq.kmers K (seq.ofBases L) = []) := by
  have hlen : (seq.kmers K (seq.ofBases L)).length = L.length - (K - 1) := by
    rw [seq.kmers_eq K L, List.length_map, List.length_range]
  refine ⟨?_, ?_, ?_⟩
  · rw [hlen]
    omega
  · intro i hi
    rw [hlen] at hi
    rw [seq.kmers_eq K L, getD_range_map _ _ _ _ hi]
    have hki : K - 1 + (i + 1) = K + i := by omega
    rw [hki]
    show (small.basesCodes _).map Base.from_u8_unchecked = _
    rw [small.codes_pushAll_new K (L.take (K + i)) hK1 hK32]
    have htlen : (L.take (K + i)).length = K + i := by
      rw [List.length_take]
      omega
    rw [fifoRun_suffix K _ hK1 (by rw [List.length_map, htlen]; omega)]
    have hdlen : ((L.take (K + i)).map Base.toCode).length - K = i := by
      rw [List.length_map, htlen]
      omega
    rw [hdlen, ← List.map_drop, List.drop_take]
    have hKi : K + i - i = K := by omega
    rw [hKi, List.map_map]
    apply List.map_congr_left
    intro b _
    exact Base.from_u8_unchecked_toCode b
  · intro hNK
    rw [seq.kmers_eq K L]
    have h0 : L.length - (K - 1) = 0 := by omega
    rw [h0]
    rfl

/-- Witness for C3 at K = 2 over the pushed bases A, G, T. -/
theorem c3_witness :
    (1 ≤ 2 ∧ 2 ≤ 32)
    ∧ (((seq.kmers 2 (seq.ofBases [Base.A, Base.G, Base.T])).length : Int)
        = max ((([Base.A, Base.G, Base.T] : List Base).length : Int) - 2 + 1) 0
      ∧ (∀ i, i < (seq.kmers 2 (seq.ofBases [Base.A, Base.G, Base.T])).length →
          small.bases ((seq.kmers 2 (seq.ofBases [Base.A, Base.G, Base.T])).getD i (small.new 2))
            = (([Base.A, Base.G, Base.T].drop i).take 2).map some)
      ∧ (([Base.A, Base.G, Base.T] : List Base).length < 2 →
          seq.kmers 2 (seq.ofBases [Base.A, Base.G, Base.T]) = [])) :=
  ⟨⟨by decide, by decide⟩, c3_sliding_windows 2 [Base.A, Base.G, Base.T] (by decide) (by decide)⟩

/-- Claim C4: from_bytes consumes bytes first-byte-to-oldest-symbols, each byte read
most-significant 2-bit group first, and in particular one byte 0b00011011 yields the
4-symbol window C, A, T, G. -/
theorem c4_from_bytes_bit_order (bytes : List Nat) (hb : ∀ b ∈ bytes, b < 256) :
    unbounded.basesCodes (unbounded.from_bytes bytes) = bytes.flatMap byteBases
    ∧ unbounded.bases (unbounded.from_bytes [0b00011011])
        = [some Base.C, some Base.A, some Base.T, some Base.G] :=
  ⟨unbounded.from_bytes_codes bytes hb, by decide⟩

/-- Witness for C4 at the single byte 0b00011011. -/
theorem c4_witness :
    (∀ b ∈ ([0b00011011] : List Nat), b < 256)
    ∧ (unbounded.basesCodes (unbounded.from_bytes [0b00011011])
        = [0b00011011].flatMap byteBases
      ∧ unbounded.bases (unbounded.from_bytes [0b00011011])
          = [some Base.C, some Base.A, some Base.T, some Base.G]) :=
  ⟨by decide, c4_from_bytes_bit_order [0b00011011] (by decide)⟩

/-- Counterexample to claim C7 as stated: immediately after new(1) the start offset is
2, not 0 (and 2 is outside the claimed range [0, 2K) = [0, 2)). -/
theorem c7_counterexample : ¬((unbounded.new 1).start = 0) := by decide

/-- Claim C7, amended: new(K) sets start to 2K (not 0), and after any push sequence the
start offset is always a multiple of 2 in the half-open-from-above range (0, 2K], i.e.
2 ≤ start ≤ 2K. -/
theorem c7_amended (K : Nat) (bs : List Base) (hK : 1 ≤ K) :
    (unbounded.new K).start = 2 * K
    ∧ 2 ∣ (unbounded.pushAll (unbounded.new K) bs).start
    ∧ 2 ≤ (unbounded.pushAll (unbounded.new K) bs).start
    ∧ (unbounded.pushAll (unbounded.new K) bs).start ≤ 2 * K := by
  obtain ⟨s2, h1, h2, h3, _⟩ := unbounded.start_inv K bs hK
  refine ⟨?_, ?_, ?_, ?_⟩
  · show K * 2 = 2 * K
    ring
  · omega
  · omega
  · omega

/-- Witness for the amended C7 at K = 1 after pushing T. -/
theorem c7_amended_witness :
    1 ≤ 1
    ∧ ((unbounded.new 1).start = 2 * 1
      ∧ 2 ∣ (unbounded.pushAll (unbounded.new 1) [Base.T]).start
      ∧ 2 ≤ (unbounded.pushAll (unbounded.new 1) [Base.T]).start
      ∧ (unbounded.pushAll (unbounded.new 1) [Base.T]).start ≤ 2 * 1) :=
  ⟨by decide, c7_amended 1 [Base.T] (by decide)⟩

/-- Claim C8, evaluated against the code: growable size() returns the backing bit
length 2K, not the symbol count K that the specification requires (at K = 1 the code
returns 2). -/
theorem c8_size_eval (K : Nat) : growable.size (growable.new K) = 2 * K := by
  show (List.replicate (K * 2) false).length = 2 * K
  rw [List.length_replicate]
  ring

/-- Claim C9: every 2-bit value handed to the unchecked numeric-to-symbol conversion by
the three internal call sites (inline reads, circular reads, sequence chunk loads) is
in 0..=3, so the undefined-behaviour branch is unreachable and every symbol read is a
valid symbol. -/
theorem c9_unchecked_in_range :
    (∀ (km : small.Kmer) (pos : Nat), small.baseCode km pos < 4
      ∧ (Base.from_u8_unchecked (small.baseCode km pos)).isSome = true)
    ∧ (∀ (km : unbounded.Kmer) (i : Nat), unbounded.baseCode km i < 4
      ∧ (Base.from_u8_unchecked (unbounded.baseCode km i)).isSome = true)
    ∧ (∀ (s : seq.Sequence) (j : Nat), seq.chunkLoad s j < 4
      ∧ (Base.from_u8_unchecked (seq.chunkLoad s j)).isSome = true) :=
  ⟨fun km pos => ⟨small.baseCode_lt km pos,
      Base.from_u8_unchecked_isSome _ (small.baseCode_lt km pos)⟩,
    fun km i => ⟨unbounded.circ_baseCode_lt km i,
      Base.from_u8_unchecked_isSome _ (unbounded.circ_baseCode_lt km i)⟩,
    fun s j => ⟨seq.chunkLoad_lt s j,
      Base.from_u8_unchecked_isSome _ (seq.chunkLoad_lt s j)⟩⟩
